import Mathlib

set_option maxRecDepth 4000

/-!
Verification of the context-compression service (`ContextCompressionService`).

Shallow embedding notes:
* A transcript is a `List MessageParam`; a turn's content is either a raw
  string or a list of content blocks, mirroring the SDK `MessageParam` type.
  Structured payloads (`tool_use.input`, non-string `tool_result.content`)
  are carried in their JSON-serialised string form, which is the only form
  the service ever inspects.
* The tokenizer (`encode` from gpt-tokenizer) is an external collaborator;
  only `encode(text).length` is used.  Every theorem is parametrised over an
  arbitrary token-length function `enc : String → ℕ`; the concrete function
  `encLen` (one token per character) instantiates it in witnesses and
  counterexamples.
* JavaScript numbers are modelled by rationals.  The arithmetic helpers
  `qadd`, `qsub`, `qmul`, `qdiv` below are kernel-computable implementations
  of the field operations on `ℚ` (proved equal to them), so that concrete
  runs of the service evaluate inside the kernel.  All concrete inputs used
  below keep every comparison far from IEEE-754 rounding boundaries, so the
  rational model and JavaScript doubles decide every branch identically.
* JavaScript `===` on distinct turn objects is modelled by structural
  equality together with a `Nodup` hypothesis on the transcript (distinct
  turn instances), and `Array.prototype.indexOf` (which yields `-1` for a
  fresh object such as a truncated copy) by `jsIndexOf` below.
* The recursion of `truncateContext` is packaged with an explicit descending
  counter (`truncGo`); `truncateContext` starts it strictly above the
  decreasing measure `truncMeasure`, so the counter never reaches zero and
  the unreachable base case returns its input.
-/

/-- Kernel-computable multiplication on `ℚ` (equal to `·*·`, see `qmul_eq`). -/
def qmul (a b : ℚ) : ℚ := Rat.divInt (a.num * b.num) ((a.den : ℤ) * (b.den : ℤ))

/-- Kernel-computable addition on `ℚ` (equal to `·+·`, see `qadd_eq`). -/
def qadd (a b : ℚ) : ℚ :=
  Rat.divInt (a.num * (b.den : ℤ) + b.num * (a.den : ℤ)) ((a.den : ℤ) * (b.den : ℤ))

/-- Kernel-computable subtraction on `ℚ` (equal to `·-·`, see `qsub_eq`). -/
def qsub (a b : ℚ) : ℚ :=
  Rat.divInt (a.num * (b.den : ℤ) - b.num * (a.den : ℤ)) ((a.den : ℤ) * (b.den : ℤ))

/-- Kernel-computable division on `ℚ` (equal to `·/·`, see `qdiv_eq`). -/
def qdiv (a b : ℚ) : ℚ := Rat.divInt (a.num * (b.den : ℤ)) ((a.den : ℤ) * b.num)

/-- `Math.min` on two rationals. -/
def jsMin (a b : ℚ) : ℚ := if a ≤ b then a else b

/-- Message author role (`'user' | 'assistant'`). -/
inductive Role where
  | user
  | assistant
deriving DecidableEq, Repr

/-- One content block of a structured turn. `tool_use.input` and
`tool_result.content` are held in their JSON-serialised form. -/
inductive ContentBlock where
  | text (text : String)
  | tool_use (id : String) (name : String) (input : String)
  | tool_result (content : String)
deriving DecidableEq, Repr

/-- A turn's content: raw text or an ordered sequence of blocks. -/
inductive MessageContent where
  | str (s : String)
  | blocks (bs : List ContentBlock)
deriving DecidableEq, Repr

/-- One turn of the transcript (SDK `MessageParam`). -/
structure MessageParam where
  role : Role
  content : MessageContent
deriving DecidableEq, Repr

/-- `encode(x).length` for one content block (the per-block cases of
`countTokens`). -/
def blockTokens (enc : String → ℕ) : ContentBlock → ℕ
  | .text t => enc t
  | .tool_use _ _ input => enc input
  | .tool_result content => enc content

/-- Token count of a single message: `encode(content).length` for a raw
string, otherwise the sum of the per-block counts. -/
def messageTokens (enc : String → ℕ) (m : MessageParam) : ℕ :=
  match m.content with
  | .str s => enc s
  | .blocks bs => (bs.map (blockTokens enc)).sum

/-- `countTokens(messages)`: total token count of a transcript. -/
def countTokens (enc : String → ℕ) (messages : List MessageParam) : ℕ :=
  (messages.map (messageTokens enc)).sum

/-- Concrete stand-in for the external tokenizer: one token per character. -/
def encLen (s : String) : ℕ := s.length

/-- Minimal JSON string escaping (backslash and double quote), used when the
service calls `JSON.stringify` on a block array. -/
def jsonEscape (s : String) : String :=
  s.foldl
    (fun acc c =>
      if c = '\\' then acc ++ "\\\\"
      else if c = '"' then acc ++ "\\\""
      else acc.push c) ""

/-- `JSON.stringify` of one content block. -/
def jsonStringifyBlock : ContentBlock → String
  | .text t => "\x7b\"type\":\"text\",\"text\":\"" ++ jsonEscape t ++ "\"\x7d"
  | .tool_use id name input =>
      "\x7b\"type\":\"tool_use\",\"id\":\"" ++ jsonEscape id ++ "\",\"name\":\"" ++
        jsonEscape name ++ "\",\"input\":" ++ input ++ "\x7d"
  | .tool_result content =>
      "\x7b\"type\":\"tool_result\",\"content\":\"" ++ jsonEscape content ++ "\"\x7d"

/-- `JSON.stringify` of a block array. -/
def jsonStringifyBlocks (bs : List ContentBlock) : String :=
  "[" ++ String.intercalate "," (bs.map jsonStringifyBlock) ++ "]"

/-- `toLowerCase()` (character-wise, as `String.toLower` computes it). -/
def jsToLower (s : String) : String :=
  ⟨s.data.map Char.toLower⟩

/-- `s.substring(0, n)` (computed on the character list). -/
def jsSubstring (s : String) (n : ℕ) : String :=
  ⟨s.data.take n⟩

/-- Substring test (`String.prototype.includes`). -/
def containsSub (s pat : String) : Bool :=
  s.toList.tails.any (fun suf => pat.toList.isPrefixOf suf)

/-- The fixed error keyword set of `messageContainsError`. -/
def errorKeywords : List String :=
  ["error", "exception", "failed", "failure", "invalid", "unable"]

/-- `messageContainsError`: case-insensitive keyword search over the turn's
text (string content directly; block content via `JSON.stringify`). -/
def messageContainsError (m : MessageParam) : Bool :=
  let content :=
    match m.content with
    | .str s => s
    | .blocks bs => jsonStringifyBlocks bs
  errorKeywords.any (fun kw => containsSub (jsToLower content) kw)

/-- `messageHasToolUse`: the turn has at least one `tool_use` or
`tool_result` block. -/
def messageHasToolUse (m : MessageParam) : Bool :=
  match m.content with
  | .str _ => false
  | .blocks bs =>
      bs.any (fun b =>
        match b with
        | .tool_use _ _ _ => true
        | .tool_result _ => true
        | .text _ => false)

/-- `detectContextOverflow(currentTokens, modelContextWindow)`:
`currentTokens >= modelContextWindow * 0.75` (`COMPRESSION_THRESHOLD`). -/
def detectContextOverflow (currentTokens modelContextWindow : ℚ) : Bool :=
  decide (qmul modelContextWindow (Rat.divInt 3 4) ≤ currentTokens)

/-- The inner block-walk of `truncateMessage` for structured content:
keep whole blocks that fit, partially keep a final text block when under 80%
of the budget (then stop), otherwise skip the block and keep scanning. -/
def truncBlocksLoop (enc : String → ℕ) (maxTokens : ℚ) :
    List ContentBlock → List ContentBlock → ℕ → List ContentBlock
  | [], acc, _ => acc
  | b :: rest, acc, currentTokens =>
      let bt := blockTokens enc b
      if ((currentTokens + bt : ℕ) : ℚ) ≤ maxTokens then
        truncBlocksLoop enc maxTokens rest (acc ++ [b]) (currentTokens + bt)
      else
        match b with
        | .text t =>
            if (currentTokens : ℚ) < qmul maxTokens (Rat.divInt 4 5) then
              let remaining := qsub maxTokens ((currentTokens : ℕ) : ℚ)
              let keep := (Rat.floor (qmul ((t.length : ℕ) : ℚ) (qdiv remaining ((bt : ℕ) : ℚ)))).toNat
              acc ++ [ContentBlock.text (jsSubstring t keep ++ "... [TRUNCATED]")]
            else truncBlocksLoop enc maxTokens rest acc currentTokens
        | _ => truncBlocksLoop enc maxTokens rest acc currentTokens

/-- `truncateMessage(message, maxTokens)`: return the message if it fits,
else cut string content proportionally (appending a marker), else keep a
prefix of its blocks; `none` when nothing survives. -/
def jsTruncateMessage (enc : String → ℕ) (message : MessageParam) (maxTokens : ℚ) :
    Option MessageParam :=
  match message.content with
  | .str s =>
      if ((enc s : ℕ) : ℚ) ≤ maxTokens then some message
      else
        let keep := (Rat.floor (qmul ((s.length : ℕ) : ℚ) (qdiv maxTokens ((enc s : ℕ) : ℚ)))).toNat
        some ⟨message.role, .str (jsSubstring s keep ++ "... [TRUNCATED]")⟩
  | .blocks bs =>
      let truncatedBlocks := truncBlocksLoop enc maxTokens bs [] 0
      if 0 < truncatedBlocks.length then some ⟨message.role, .blocks truncatedBlocks⟩
      else none

/-- Render a role the way the summary prompt does. -/
def roleString : Role → String
  | .user => "user"
  | .assistant => "assistant"

/-- `generateSummary(messages)`: the (purely template-based) summary text. -/
def generateSummary (messages : List MessageParam) : String :=
  let contextText := String.intercalate "\n\n" (messages.map (fun m =>
    match m.content with
    | .str s => roleString m.role ++ ": " ++ s
    | .blocks bs => roleString m.role ++ ": " ++ jsonStringifyBlocks bs))
  "The following conversation has been summarized for context compression:\n    \nKey Points:\n- " ++
    toString (messages.filter (fun m => decide (m.role = Role.user))).length ++
    " user messages\n- " ++
    toString (messages.filter (fun m => decide (m.role = Role.assistant))).length ++
    " assistant responses\n- Main topics discussed: [Analysis of conversation topics would go here]\n\nSummary of conversation:\n" ++
    jsSubstring contextText 2000 ++ "... [Additional context available if needed]"

/-- The synthetic summary turn wrapped around `generateSummary`'s output. -/
def summaryMessage (summary : String) : MessageParam :=
  ⟨Role.user, .blocks [ContentBlock.text ("[CONTEXT SUMMARY]\n" ++ summary ++ "\n[END SUMMARY]")]⟩

/-- `summarizeContext(messages, targetTokens)`.  The recursion of the source
has no decreasing measure (see `C2_summarize_diverges`), so it is modelled
with a step counter `fuel`; `none` means the recursion did not finish within
`fuel` steps.  `messages.slice(0, -preserveCount)` and
`messages.slice(-preserveCount)` are the JavaScript slices: when
`preserveCount = 0` they are `[]` and the whole list respectively. -/
def summarizeContext (enc : String → ℕ) :
    ℕ → List MessageParam → ℚ → Option (List MessageParam × String)
  | 0, _, _ => none
  | fuel + 1, messages, targetTokens =>
      let preserveCount := (Rat.floor (qmul ((messages.length : ℕ) : ℚ) (Rat.divInt 1 5))).toNat
      let toSummarize :=
        if preserveCount = 0 then [] else messages.take (messages.length - preserveCount)
      let preserved :=
        if preserveCount = 0 then messages else messages.drop (messages.length - preserveCount)
      let summary := generateSummary toSummarize
      let compressedMessages := summaryMessage summary :: preserved
      if targetTokens < ((countTokens enc compressedMessages : ℕ) : ℚ) then
        summarizeContext enc fuel preserved targetTokens
      else
        some (compressedMessages, summary)

/-- `messages.slice(-n)` for `n ≥ 1`: the last `n` elements. -/
def takeLast (n : ℕ) (l : List MessageParam) : List MessageParam :=
  l.drop (l.length - n)

/-- The backward greedy walk of `truncateContext` over the older turns
(processed here through the reversed older segment, prepending each turn
that still fits and stopping at the first one that does not). -/
def bfLoop (enc : String → ℕ) (targetTokens : ℚ) :
    List MessageParam → List MessageParam → ℕ → List MessageParam
  | [], acc, _ => acc
  | m :: rest, acc, currentTokens =>
      let mt := countTokens enc [m]
      if ((currentTokens + mt : ℕ) : ℚ) ≤ targetTokens then
        bfLoop enc targetTokens rest (m :: acc) (currentTokens + mt)
      else acc

/-- Decreasing measure of `truncateContext`'s recursion. -/
def truncMeasure (messages : List MessageParam) (preserveRecent : ℕ) : ℕ :=
  2 * messages.length + (if preserveRecent = 0 then 1 else 0)

/-- The body of `truncateContext`, with an explicit recursion counter.
`messages.slice(-preserveRecent)` is the whole list when
`preserveRecent = 0` (JavaScript `-0`). -/
def truncGo (enc : String → ℕ) :
    ℕ → List MessageParam → ℚ → ℕ → List MessageParam
  | 0, messages, _, _ => messages
  | fuel + 1, messages, targetTokens, preserveRecent =>
      if messages.length ≤ preserveRecent then messages
      else
        let recentMessages :=
          if preserveRecent = 0 then messages else takeLast preserveRecent messages
        let currentTokens := countTokens enc recentMessages
        if targetTokens < ((currentTokens : ℕ) : ℚ) then
          truncGo enc fuel recentMessages targetTokens (max 1 (preserveRecent - 1))
        else
          bfLoop enc targetTokens
            ((messages.take (messages.length - preserveRecent)).reverse)
            recentMessages currentTokens

/-- `truncateContext(messages, targetTokens, preserveRecent = 5)`. -/
def truncateContext (enc : String → ℕ) (messages : List MessageParam)
    (targetTokens : ℚ) (preserveRecent : ℕ) : List MessageParam :=
  truncGo enc (truncMeasure messages preserveRecent + 1) messages targetTokens preserveRecent

/-- Stable insertion step: `x` goes after every `y` with `lt y x`. -/
def insertBy {α : Type} (lt : α → α → Bool) (x : α) : List α → List α
  | [] => [x]
  | y :: ys => if lt y x then y :: insertBy lt x ys else x :: y :: ys

/-- Stable sort (the behaviour of `Array.prototype.sort` with a consistent
comparator, stable since ES2019). -/
def sortBy {α : Type} (lt : α → α → Bool) : List α → List α
  | [] => []
  | x :: xs => insertBy lt x (sortBy lt xs)

/-- `messages.indexOf(m)`: first index under `===`, `-1` when absent. -/
def jsIndexOf (messages : List MessageParam) (m : MessageParam) : ℤ :=
  if m ∈ messages then (messages.indexOf m : ℤ) else -1

/-- The comparator `(a, b) => messages.indexOf(a) - messages.indexOf(b)`. -/
def idxLt (messages : List MessageParam) (a b : MessageParam) : Bool :=
  decide (jsIndexOf messages a < jsIndexOf messages b)

/-- Priority record produced by `calculatePriorities` (the unused optional
`timestamp` field is dropped). -/
structure MessagePriority where
  message : MessageParam
  priority : ℚ
  tokenCount : ℕ
  isToolUse : Bool
  hasError : Bool
deriving DecidableEq, Repr

/-- The additive score of one turn at position `index` of `n` turns. -/
def priorityScore (enc : String → ℕ) (n index : ℕ) (m : MessageParam) : ℚ :=
  qadd (qadd (qadd (qadd (qadd
    (qmul (qdiv ((index : ℕ) : ℚ) ((n : ℕ) : ℚ)) 30)
    (if m.role = Role.user then 20 else 0))
    (if messageContainsError m then 25 else 0))
    (if messageHasToolUse m then 10 else 0))
    (if index = 0 ∨ index = n - 1 then 15 else 0))
    (if countTokens enc [m] < 100 then 5
     else if 1000 < countTokens enc [m] then -10 else 0)

/-- `calculatePriorities(messages)`: one priority record per turn, in order. -/
def calculatePriorities (enc : String → ℕ) (messages : List MessageParam) :
    List MessagePriority :=
  messages.enum.map (fun p =>
    ⟨p.2, priorityScore enc messages.length p.1 p.2, countTokens enc [p.2],
      messageHasToolUse p.2, messageContainsError p.2⟩)

/-- The accumulation loop of `priorityBasedCompress`: keep a turn whole when
it fits, else attempt partial truncation while under half the budget. -/
def pbLoop (enc : String → ℕ) (targetTokens : ℚ) :
    List MessagePriority → List MessageParam → ℕ → List MessageParam
  | [], result, _ => result
  | item :: rest, result, currentTokens =>
      if ((currentTokens + item.tokenCount : ℕ) : ℚ) ≤ targetTokens then
        pbLoop enc targetTokens rest (result ++ [item.message])
          (currentTokens + item.tokenCount)
      else if ((currentTokens : ℕ) : ℚ) < qmul targetTokens (Rat.divInt 1 2) then
        match jsTruncateMessage enc item.message (qsub targetTokens ((currentTokens : ℕ) : ℚ)) with
        | some truncated =>
            pbLoop enc targetTokens rest (result ++ [truncated])
              (countTokens enc (result ++ [truncated]))
        | none => pbLoop enc targetTokens rest result currentTokens
      else pbLoop enc targetTokens rest result currentTokens

/-- `priorityBasedCompress(messages, targetTokens)`. -/
def priorityBasedCompress (enc : String → ℕ) (messages : List MessageParam)
    (targetTokens : ℚ) : List MessageParam :=
  let priorities := calculatePriorities enc messages
  let sorted := sortBy (fun a b => decide (b.priority < a.priority)) priorities
  sortBy (idxLt messages) (pbLoop enc targetTokens sorted [] 0)

/-- `[...new Set(xs)]`: keep the first occurrence of every element. -/
def uniqueFirst : List ℕ → List ℕ
  | [] => []
  | x :: xs => x :: (uniqueFirst xs).filter (fun y => y != x)

/-- `identifyImportantMessages(messages)`: indices of user turns, error
turns and boundary turns, first occurrence kept. -/
def identifyImportantMessages (messages : List MessageParam) : List ℕ :=
  uniqueFirst (messages.enum.flatMap (fun p =>
    (if p.2.role = Role.user then [p.1] else []) ++
    (if messageContainsError p.2 then [p.1] else []) ++
    (if p.1 = 0 ∨ p.1 = messages.length - 1 then [p.1] else [])))

/-- `messages[idx]` (indices produced by `identifyImportantMessages` are
always in range). -/
def nthMessage (messages : List MessageParam) (idx : ℕ) : MessageParam :=
  messages.getD idx ⟨Role.user, .str ""⟩

/-- `selectRepresentative(window)`: a user turn if any, else an error turn,
else the turn with the fewest tokens (earliest on ties). -/
def selectRepresentative (enc : String → ℕ) (window : List MessageParam) :
    Option MessageParam :=
  match window with
  | [] => none
  | w₀ :: ws =>
      match (w₀ :: ws).find? (fun m => decide (m.role = Role.user)) with
      | some u => some u
      | none =>
          match (w₀ :: ws).find? messageContainsError with
          | some e => some e
          | none =>
              some (ws.foldl (fun shortest current =>
                if countTokens enc [current] < countTokens enc [shortest] then current
                else shortest) w₀)

/-- First pass of `slidingWindowCompress`: add important turns while under
30% of the budget (skipping, not stopping, on overflow). -/
def swImportantPass (enc : String → ℕ) (messages : List MessageParam)
    (targetTokens : ℚ) : List MessageParam :=
  (identifyImportantMessages messages).foldl
    (fun result idx =>
      if ((countTokens enc (result ++ [nthMessage messages idx]) : ℕ) : ℚ) ≤
          qmul targetTokens (Rat.divInt 3 10) then
        result ++ [nthMessage messages idx]
      else result) []

/-- Second pass of `slidingWindowCompress` over the descending window
anchors: add each window's representative unless present, stopping at the
first representative that would overflow the budget. -/
def swLoop (enc : String → ℕ) (messages : List MessageParam) (targetTokens : ℚ)
    (windowSize : ℕ) : List ℕ → List MessageParam → List MessageParam
  | [], result => result
  | i :: rest, result =>
      let window := (messages.take (i + 1)).drop (i - windowSize)
      match selectRepresentative enc window with
      | none => swLoop enc messages targetTokens windowSize rest result
      | some representative =>
          if representative ∈ result then
            swLoop enc messages targetTokens windowSize rest result
          else
            if ((countTokens enc (sortBy (idxLt messages) (result ++ [representative])) : ℕ) : ℚ) ≤
                targetTokens then
              swLoop enc messages targetTokens windowSize rest (result ++ [representative])
            else result

/-- `slidingWindowCompress(messages, targetTokens)`.  The loop anchors
`i = length-1, length-1-stride, …` are generated in closed form. -/
def slidingWindowCompress (enc : String → ℕ) (messages : List MessageParam)
    (targetTokens : ℚ) : List MessageParam :=
  let windowSize := (Rat.ceil (qmul ((messages.length : ℕ) : ℚ) (Rat.divInt 3 10))).toNat
  let stride := max 1 (Rat.floor (qmul ((windowSize : ℕ) : ℚ) (Rat.divInt 1 2))).toNat
  let anchors :=
    if messages.length = 0 then []
    else (List.range ((messages.length - 1) / stride + 1)).map
      (fun k => (messages.length - 1) - k * stride)
  sortBy (idxLt messages)
    (swLoop enc messages targetTokens windowSize anchors
      (swImportantPass enc messages targetTokens))

/-- Strategy kind tag. -/
inductive StrategyType where
  | summarize
  | truncate
  | slidingWindow
  | priorityBased
deriving DecidableEq, Repr

/-- `CompressionStrategy` descriptor. -/
structure CompressionStrategy where
  type : StrategyType
  maxTokens : ℚ
  preserveRecent : Option ℕ
  preserveImportant : Option Bool
deriving DecidableEq, Repr

/-- `CompressedContext` result record. -/
structure CompressedContext where
  messages : List MessageParam
  summary : Option String
  compressionRatio : ℚ
  originalTokenCount : ℕ
  compressedTokenCount : ℕ
  strategy : CompressionStrategy
deriving DecidableEq, Repr

/-- `compressContext(messages, strategy, modelContextWindow)`.  `fuel` feeds
the summarize strategy's recursion counter; every other path ignores it and
always yields `some`. -/
def compressContext (enc : String → ℕ) (fuel : ℕ) (messages : List MessageParam)
    (strategy : CompressionStrategy) (modelContextWindow : ℚ) :
    Option CompressedContext :=
  let originalTokenCount := countTokens enc messages
  let targetTokens := jsMin strategy.maxTokens (qmul modelContextWindow (Rat.divInt 3 4))
  if ((originalTokenCount : ℕ) : ℚ) ≤ targetTokens then
    some ⟨messages, none, 1, originalTokenCount, originalTokenCount, strategy⟩
  else
    let compressedPair : Option (List MessageParam × Option String) :=
      match strategy.type with
      | .summarize =>
          (summarizeContext enc fuel messages targetTokens).map (fun r => (r.1, some r.2))
      | .truncate =>
          some (truncateContext enc messages targetTokens (strategy.preserveRecent.getD 5), none)
      | .slidingWindow => some (slidingWindowCompress enc messages targetTokens, none)
      | .priorityBased => some (priorityBasedCompress enc messages targetTokens, none)
    compressedPair.map (fun p =>
      ⟨p.1, p.2, qdiv ((countTokens enc p.1 : ℕ) : ℚ) ((originalTokenCount : ℕ) : ℚ),
        originalTokenCount, countTokens enc p.1, strategy⟩)

/-- The derivation relation between an output turn of
`priorityBasedCompress` and the input turn it came from: kept whole or kept
as a partial truncation. -/
def derivedFrom (enc : String → ℕ) (out orig : MessageParam) : Prop :=
  out = orig ∨ ∃ budget : ℚ, jsTruncateMessage enc orig budget = some out

/-! Concrete turns used by witnesses and counterexamples (token counts are
under `encLen`, one token per character). -/

/-- A 12-token user turn. -/
def msgU12 : MessageParam := ⟨Role.user, .str "aaaaaaaaaaaa"⟩

/-- A 2-token assistant turn. -/
def msgA2 : MessageParam := ⟨Role.assistant, .str "bb"⟩

/-- A 2-token user turn. -/
def msgU2 : MessageParam := ⟨Role.user, .str "aa"⟩

/-- A 12-token assistant turn. -/
def msgZ12 : MessageParam := ⟨Role.assistant, .str "zzzzzzzzzzzz"⟩

/-- A short user turn. -/
def mHi : MessageParam := ⟨Role.user, .str "hi"⟩

/-- A user turn carrying an error keyword (5 tokens). -/
def mErr : MessageParam := ⟨Role.user, .str "error"⟩

/-- A 30-token assistant turn. -/
def mC30 : MessageParam := ⟨Role.assistant, .str "cccccccccccccccccccccccccccccc"⟩

/-- The partial truncation of `mC30` to a budget of 15 tokens. -/
def mC30trunc : MessageParam := ⟨Role.assistant, .str "ccccccccccccccc... [TRUNCATED]"⟩

/-- An 8-token assistant turn. -/
def swM1 : MessageParam := ⟨Role.assistant, .str "mmmmmmmm"⟩

/-- A 24-token user turn. -/
def swR : MessageParam := ⟨Role.user, .str "rrrrrrrrrrrrrrrrrrrrrrrr"⟩

/-- An 11-token assistant turn. -/
def pbX : MessageParam := ⟨Role.assistant, .str "xxxxxxxxxxx"⟩

/-- A 10-token assistant turn. -/
def mA10 : MessageParam := ⟨Role.assistant, .str "aaaaaaaaaa"⟩

/- ======================================================================
   Theorems
   ====================================================================== -/

theorem qmul_eq (a b : ℚ) : qmul a b = a * b := by
  rw [qmul, Rat.divInt_eq_div]
  push_cast
  rw [mul_div_mul_comm, Rat.num_div_den, Rat.num_div_den]

theorem qadd_eq (a b : ℚ) : qadd a b = a + b := by
  have ha : ((a.den : ℚ)) ≠ 0 := by exact_mod_cast a.den_nz
  have hb : ((b.den : ℚ)) ≠ 0 := by exact_mod_cast b.den_nz
  rw [qadd, Rat.divInt_eq_div]
  push_cast
  conv_rhs => rw [← Rat.num_div_den a, ← Rat.num_div_den b]
  rw [div_add_div _ _ ha hb]
  ring_nf

theorem qsub_eq (a b : ℚ) : qsub a b = a - b := by
  have ha : ((a.den : ℚ)) ≠ 0 := by exact_mod_cast a.den_nz
  have hb : ((b.den : ℚ)) ≠ 0 := by exact_mod_cast b.den_nz
  rw [qsub, Rat.divInt_eq_div]
  push_cast
  conv_rhs => rw [← Rat.num_div_den a, ← Rat.num_div_den b]
  rw [div_sub_div _ _ ha hb]
  ring_nf

theorem qdiv_eq (a b : ℚ) : qdiv a b = a / b := by
  by_cases hb0 : b = 0
  · subst hb0
    simp [qdiv]
  · have ha : ((a.den : ℚ)) ≠ 0 := by exact_mod_cast a.den_nz
    have hb : ((b.den : ℚ)) ≠ 0 := by exact_mod_cast b.den_nz
    have hbn : ((b.num : ℚ)) ≠ 0 := by exact_mod_cast Rat.num_ne_zero.mpr hb0
    rw [qdiv, Rat.divInt_eq_div]
    push_cast
    conv_rhs => rw [← Rat.num_div_den a, ← Rat.num_div_den b]
    rw [div_div_div_comm]
    rw [div_div_eq_mul_div, div_mul_eq_mul_div, mul_comm (a.den : ℚ) (b.num : ℚ)]
    rw [div_div]

/-- Claim C5: the token estimator is additive over concatenation and
non-negative on every message list. -/
theorem C5_count_additive_nonneg :
    (∀ (enc : String → ℕ) (a b : List MessageParam),
        countTokens enc (a ++ b) = countTokens enc a + countTokens enc b) ∧
    (∀ (enc : String → ℕ) (m : List MessageParam), 0 ≤ countTokens enc m) := by
  constructor
  · intro enc a b
    simp [countTokens]
  · intro enc m
    exact Nat.zero_le _

/-- Claim C6: `detectContextOverflow` is true exactly when the current token
count reaches 75% of the model context window; in particular it is true at
(750, 1000) and false at (500, 1000). -/
theorem C6_detect_overflow :
    (∀ currentTokens modelContextWindow : ℚ,
        detectContextOverflow currentTokens modelContextWindow = true ↔
          modelContextWindow * (3/4) ≤ currentTokens) ∧
    detectContextOverflow 750 1000 = true ∧
    detectContextOverflow 500 1000 = false := by
  refine ⟨fun c w => ?_, by decide, by decide⟩
  simp only [detectContextOverflow, qmul_eq, Rat.divInt_eq_div, decide_eq_true_eq]
  norm_num

/-- Witness for C6 at the concrete scenario inputs. -/
theorem C6_witness :
    detectContextOverflow 750 1000 = true ∧ detectContextOverflow 500 1000 = false :=
  ⟨C6_detect_overflow.2.1, C6_detect_overflow.2.2⟩

theorem jsMin_eq (a b : ℚ) : jsMin a b = min a b := by
  rw [jsMin, min_def]

theorem countTokens_cons (enc : String → ℕ) (m : MessageParam) (l : List MessageParam) :
    countTokens enc (m :: l) = messageTokens enc m + countTokens enc l := by
  simp [countTokens]

theorem countTokens_append (enc : String → ℕ) (a b : List MessageParam) :
    countTokens enc (a ++ b) = countTokens enc a + countTokens enc b := by
  simp [countTokens]

/-- Claim C2: the summarize recursion does not terminate on small
transcripts.  When the transcript has at most four turns,
`floor(length * 0.2) = 0`, so `messages.slice(-0)` preserves the whole
input and the recursive call repeats the identical arguments; whenever the
synthetic summary turn plus the preserved turns exceed the budget (always,
for a zero budget), the recursion never returns, contradicting the claimed
base case for empty and single-turn transcripts.  The step counter of the
model witnesses this: no amount of fuel produces a result. -/
theorem C2_summarize_diverges :
    (∀ fuel, summarizeContext encLen fuel [mHi] 0 = none) ∧
    (∀ fuel, summarizeContext encLen fuel [] 0 = none) := by
  constructor
  · intro fuel
    induction fuel with
    | zero => rfl
    | succ n ih =>
        have hstep : summarizeContext encLen (n + 1) [mHi] 0 =
            if (0 : ℚ) <
                ((countTokens encLen (summaryMessage (generateSummary []) :: [mHi]) : ℕ) : ℚ) then
              summarizeContext encLen n [mHi] 0
            else some (summaryMessage (generateSummary []) :: [mHi], generateSummary []) := rfl
        have hshape : countTokens encLen (summaryMessage (generateSummary []) :: [mHi]) =
            messageTokens encLen (summaryMessage (generateSummary [])) + 2 := rfl
        have hpos : (0 : ℚ) <
            ((countTokens encLen (summaryMessage (generateSummary []) :: [mHi]) : ℕ) : ℚ) := by
          have h1 : 0 < countTokens encLen (summaryMessage (generateSummary []) :: [mHi]) := by
            rw [hshape]; omega
          exact_mod_cast h1
        rw [hstep, if_pos hpos]
        exact ih
  · intro fuel
    induction fuel with
    | zero => rfl
    | succ n ih =>
        have hstep : summarizeContext encLen (n + 1) [] 0 =
            if (0 : ℚ) <
                ((countTokens encLen [summaryMessage (generateSummary [])] : ℕ) : ℚ) then
              summarizeContext encLen n [] 0
            else some ([summaryMessage (generateSummary [])], generateSummary []) := rfl
        have hshape : countTokens encLen [summaryMessage (generateSummary [])] =
            ("[CONTEXT SUMMARY]\n".length + (generateSummary []).length) +
              "\n[END SUMMARY]".length := by
          show encLen ("[CONTEXT SUMMARY]\n" ++ generateSummary [] ++ "\n[END SUMMARY]") + 0 = _
          show ("[CONTEXT SUMMARY]\n" ++ generateSummary [] ++ "\n[END SUMMARY]").length + 0 = _
          rw [String.length_append, String.length_append]
          omega
        have hpos : (0 : ℚ) <
            ((countTokens encLen [summaryMessage (generateSummary [])] : ℕ) : ℚ) := by
          have h18 : "[CONTEXT SUMMARY]\n".length = 18 := by decide
          have h1 : 0 < countTokens encLen [summaryMessage (generateSummary [])] := by
            rw [hshape, h18]; omega
          exact_mod_cast h1
        rw [hstep, if_pos hpos]
        exact ih

/-- Claim C4: when the transcript already fits under
`min(strategy.maxTokens, modelContextWindow * 0.75)`, the orchestrator
returns the identical transcript with ratio exactly 1 and equal token
counts, without invoking any strategy — the result is the same for every
recursion budget `fuel`, in particular for `fuel = 0`, under which the
summarize strategy could not have produced a result at all. -/
theorem C4_noop_fast_path (enc : String → ℕ) (fuel : ℕ) (messages : List MessageParam)
    (strategy : CompressionStrategy) (modelContextWindow : ℚ)
    (h : ((countTokens enc messages : ℕ) : ℚ) ≤
      min strategy.maxTokens (modelContextWindow * (3/4))) :
    compressContext enc fuel messages strategy modelContextWindow =
      some ⟨messages, none, 1, countTokens enc messages, countTokens enc messages, strategy⟩ := by
  have h34 : (Rat.divInt 3 4 : ℚ) = 3/4 := by
    rw [Rat.divInt_eq_div]; norm_num
  have h' : ((countTokens enc messages : ℕ) : ℚ) ≤
      jsMin strategy.maxTokens (qmul modelContextWindow (Rat.divInt 3 4)) := by
    rw [jsMin_eq, qmul_eq, h34]
    exact h
  simp only [compressContext]
  rw [if_pos h']

/-- Witness for C4 at a concrete fitting transcript. -/
theorem C4_witness :
    compressContext encLen 0 [mHi] ⟨StrategyType.truncate, 1000, none, none⟩ 1000 =
      some ⟨[mHi], none, 1, countTokens encLen [mHi], countTokens encLen [mHi],
        ⟨StrategyType.truncate, 1000, none, none⟩⟩ :=
  C4_noop_fast_path encLen 0 [mHi] ⟨StrategyType.truncate, 1000, none, none⟩ 1000
    (by
      have h2 : countTokens encLen [mHi] = 2 := by decide
      rw [h2]; norm_num)

/-- Claim C9: a transcript with at most `preserveRecent` turns is returned
unchanged by `truncateContext`, whatever the token budget. -/
theorem C9_small_transcript_unchanged (enc : String → ℕ) (messages : List MessageParam)
    (targetTokens : ℚ) (preserveRecent : ℕ) (h : messages.length ≤ preserveRecent) :
    truncateContext enc messages targetTokens preserveRecent = messages := by
  simp only [truncateContext, truncGo]
  rw [if_pos h]

/-- Witness for C9: two turns totalling 14 tokens survive a budget of 5. -/
theorem C9_witness :
    truncateContext encLen [msgU12, msgA2] 5 5 = [msgU12, msgA2] ∧
    ¬ ((countTokens encLen [msgU12, msgA2] : ℕ) : ℚ) ≤ 5 :=
  ⟨C9_small_transcript_unchanged encLen [msgU12, msgA2] 5 5 (by decide), by decide⟩

/-- Claim C10: `slidingWindowCompress` can return an empty transcript on a
non-empty input with a positive budget: a 10-token turn, budget 5 — the
important pass rejects it (10 > 0.3·5) and the representative pass stops at
the first window because adding its representative would exceed 5. -/
theorem C10_sliding_window_empty :
    slidingWindowCompress encLen [mA10] 5 = [] ∧
    ([mA10] : List MessageParam) ≠ [] ∧ (0 : ℚ) < 5 := by
  refine ⟨by decide, by decide, by decide⟩

theorem countTokens_single (enc : String → ℕ) (m : MessageParam) :
    countTokens enc [m] = messageTokens enc m := by
  simp [countTokens]

theorem countTokens_drop_le (enc : String → ℕ) (n : ℕ) (l : List MessageParam) :
    countTokens enc (l.drop n) ≤ countTokens enc l := by
  conv_rhs => rw [← List.take_append_drop n l]
  rw [countTokens_append]
  omega

theorem countTokens_take_le (enc : String → ℕ) (n : ℕ) (l : List MessageParam) :
    countTokens enc (l.take n) ≤ countTokens enc l := by
  conv_rhs => rw [← List.take_append_drop n l]
  rw [countTokens_append]
  omega

theorem countTokens_reverse (enc : String → ℕ) (l : List MessageParam) :
    countTokens enc l.reverse = countTokens enc l := by
  simp [countTokens, List.map_reverse, List.sum_reverse]

theorem takeLast_length (pr : ℕ) (l : List MessageParam) (h : pr ≤ l.length) :
    (takeLast pr l).length = pr := by
  simp [takeLast]
  omega

theorem takeLast_one (pr : ℕ) (l : List MessageParam) (h1 : 1 ≤ pr) (h2 : pr ≤ l.length) :
    takeLast 1 (takeLast pr l) = takeLast 1 l := by
  simp only [takeLast, List.drop_drop, List.length_drop]
  congr 1
  omega

theorem countTokens_takeLast_le (enc : String → ℕ) (n : ℕ) (l : List MessageParam) :
    countTokens enc (takeLast n l) ≤ countTokens enc l :=
  countTokens_drop_le enc _ l

/-- Shape of the greedy backfill: it prepends some reversed prefix of its
input onto the accumulator. -/
theorem bfLoop_shape (enc : String → ℕ) (t : ℚ) :
    ∀ (rev acc : List MessageParam) (cur : ℕ),
      ∃ k, bfLoop enc t rev acc cur = (rev.take k).reverse ++ acc := by
  intro rev
  induction rev with
  | nil => intro acc cur; exact ⟨0, rfl⟩
  | cons m rest ih =>
      intro acc cur
      rw [bfLoop]
      split
      · obtain ⟨k, hk⟩ := ih (m :: acc) (cur + countTokens enc [m])
        refine ⟨k + 1, ?_⟩
        rw [hk]
        simp
      · exact ⟨0, rfl⟩

/-- The greedy backfill keeps the running total within the budget. -/
theorem bfLoop_budget (enc : String → ℕ) (t : ℚ) :
    ∀ (rev acc : List MessageParam) (cur : ℕ),
      cur = countTokens enc acc → ((cur : ℕ) : ℚ) ≤ t →
      ((countTokens enc (bfLoop enc t rev acc cur) : ℕ) : ℚ) ≤ t := by
  intro rev
  induction rev with
  | nil =>
      intro acc cur hc hle
      rw [bfLoop, ← hc]
      exact hle
  | cons m rest ih =>
      intro acc cur hc hle
      rw [bfLoop]
      split
      · refine ih (m :: acc) (cur + countTokens enc [m]) ?_ (by assumption)
        rw [countTokens_single, countTokens_cons]
        omega
      · rw [← hc]; exact hle

/-- The greedy backfill never drops below the accumulator's weight. -/
theorem bfLoop_ge_acc (enc : String → ℕ) (t : ℚ) (rev acc : List MessageParam) (cur : ℕ) :
    countTokens enc acc ≤ countTokens enc (bfLoop enc t rev acc cur) := by
  obtain ⟨k, hk⟩ := bfLoop_shape enc t rev acc cur
  rw [hk, countTokens_append]
  omega

/-- The greedy backfill adds at most the weight of its input segment. -/
theorem bfLoop_le (enc : String → ℕ) (t : ℚ) (rev acc : List MessageParam) (cur : ℕ) :
    countTokens enc (bfLoop enc t rev acc cur) ≤
      countTokens enc rev + countTokens enc acc := by
  obtain ⟨k, hk⟩ := bfLoop_shape enc t rev acc cur
  rw [hk, countTokens_append, countTokens_reverse]
  have := countTokens_take_le enc k rev
  omega

/-- The greedy backfill output weight is monotone in the budget. -/
theorem bfLoop_mono (enc : String → ℕ) (t t' : ℚ) (h : t' ≤ t) :
    ∀ (rev acc : List MessageParam) (cur : ℕ),
      countTokens enc (bfLoop enc t' rev acc cur) ≤
        countTokens enc (bfLoop enc t rev acc cur) := by
  intro rev
  induction rev with
  | nil => intro acc cur; rw [bfLoop, bfLoop]
  | cons m rest ih =>
      intro acc cur
      rw [bfLoop, bfLoop]
      by_cases h1 : ((cur + countTokens enc [m] : ℕ) : ℚ) ≤ t'
      · rw [if_pos h1, if_pos (le_trans h1 h)]
        exact ih (m :: acc) (cur + countTokens enc [m])
      · rw [if_neg h1]
        split
        · calc countTokens enc acc ≤ countTokens enc (m :: acc) := by
                rw [countTokens_cons]; omega
            _ ≤ _ := bfLoop_ge_acc enc t rest (m :: acc) (cur + countTokens enc [m])
        · exact le_refl _

/-- `truncGo` is the identity on transcripts of at most `preserveRecent`
turns, whatever the counter. -/
theorem truncGo_of_len_le (enc : String → ℕ) (msgs : List MessageParam) (t : ℚ) (pr : ℕ)
    (h : msgs.length ≤ pr) : ∀ fuel, truncGo enc fuel msgs t pr = msgs := by
  intro fuel
  cases fuel with
  | zero => rfl
  | succ n => rw [truncGo, if_pos h]

/-- One-step unfolding of `truncGo` in the truncating case. -/
theorem truncGo_succ (enc : String → ℕ) (fuel : ℕ) (msgs : List MessageParam) (t : ℚ) (pr : ℕ)
    (hlen : ¬ msgs.length ≤ pr) (hpr : ¬ pr = 0) :
    truncGo enc (fuel + 1) msgs t pr =
      if t < ((countTokens enc (takeLast pr msgs) : ℕ) : ℚ) then
        truncGo enc fuel (takeLast pr msgs) t (max 1 (pr - 1))
      else
        bfLoop enc t ((msgs.take (msgs.length - pr)).reverse) (takeLast pr msgs)
          (countTokens enc (takeLast pr msgs)) := by
  rw [truncGo]
  simp only [hlen, if_false, hpr]

/-- The truncate strategy never increases the transcript's weight. -/
theorem truncGo_le_count (enc : String → ℕ) :
    ∀ (fuel : ℕ) (msgs : List MessageParam) (t : ℚ) (pr : ℕ),
      truncMeasure msgs pr < fuel → 1 ≤ pr →
      countTokens enc (truncGo enc fuel msgs t pr) ≤ countTokens enc msgs := by
  intro fuel
  induction fuel with
  | zero => intro msgs t pr hm; omega
  | succ n ih =>
      intro msgs t pr hm hpr
      by_cases hlen : msgs.length ≤ pr
      · rw [truncGo_of_len_le enc msgs t pr hlen]
      · rw [truncGo_succ enc n msgs t pr hlen (by omega)]
        have hrl : (takeLast pr msgs).length = pr :=
          takeLast_length pr msgs (by omega)
        have hrle : countTokens enc (takeLast pr msgs) ≤ countTokens enc msgs :=
          countTokens_takeLast_le enc pr msgs
        split
        · have hm' : truncMeasure (takeLast pr msgs) (max 1 (pr - 1)) < n := by
            simp only [truncMeasure] at hm ⊢
            rw [hrl]
            have : ¬ (max 1 (pr - 1)) = 0 := by omega
            simp only [this, if_false]
            omega
          exact le_trans (ih (takeLast pr msgs) t (max 1 (pr - 1)) hm' (by omega)) hrle
        · have := bfLoop_le enc t ((msgs.take (msgs.length - pr)).reverse)
            (takeLast pr msgs) (countTokens enc (takeLast pr msgs))
          rw [countTokens_reverse] at this
          calc countTokens enc _ ≤ _ := this
            _ = countTokens enc msgs := by
                rw [takeLast, ← countTokens_append, List.take_append_drop]

/-- Core of the amended claim C1: on transcripts longer than
`preserveRecent ≥ 1`, the output is non-empty; it fits the budget whenever
the most recent turn does, and otherwise it is exactly that single most
recent turn. -/
theorem truncGo_main (enc : String → ℕ) :
    ∀ (fuel : ℕ) (msgs : List MessageParam) (t : ℚ) (pr : ℕ),
      truncMeasure msgs pr < fuel → 1 ≤ pr → pr < msgs.length →
      (truncGo enc fuel msgs t pr ≠ [] ∧
        (((countTokens enc (takeLast 1 msgs) : ℕ) : ℚ) ≤ t →
          ((countTokens enc (truncGo enc fuel msgs t pr) : ℕ) : ℚ) ≤ t) ∧
        (¬ ((countTokens enc (takeLast 1 msgs) : ℕ) : ℚ) ≤ t →
          truncGo enc fuel msgs t pr = takeLast 1 msgs)) := by
  intro fuel
  induction fuel with
  | zero => intro msgs t pr hm; omega
  | succ n ih =>
      intro msgs t pr hm hpr hlt
      have hlen : ¬ msgs.length ≤ pr := by omega
      rw [truncGo_succ enc n msgs t pr hlen (by omega)]
      have hrl : (takeLast pr msgs).length = pr := takeLast_length pr msgs (by omega)
      have htl1 : takeLast 1 (takeLast pr msgs) = takeLast 1 msgs :=
        takeLast_one pr msgs hpr (by omega)
      have htl_le : countTokens enc (takeLast 1 msgs) ≤ countTokens enc (takeLast pr msgs) := by
        rw [← htl1]
        exact countTokens_takeLast_le enc 1 (takeLast pr msgs)
      have hne : takeLast pr msgs ≠ [] := by
        intro hcon
        rw [hcon] at hrl
        simp at hrl
        omega
      split
      · rename_i hgt
        by_cases hpr1 : pr = 1
        · subst hpr1
          have heq : truncGo enc n (takeLast 1 msgs) t (max 1 (1 - 1)) = takeLast 1 msgs := by
            have : (max 1 (1 - 1)) = 1 := by omega
            rw [this]
            exact truncGo_of_len_le enc _ t 1 (by rw [hrl]) n
          rw [heq]
          refine ⟨hne, ?_, fun _ => rfl⟩
          intro hfit
          exact absurd (lt_of_le_of_lt hfit hgt) (by simp)
        · have hm' : truncMeasure (takeLast pr msgs) (max 1 (pr - 1)) < n := by
            simp only [truncMeasure] at hm ⊢
            rw [hrl]
            have h0 : ¬ (max 1 (pr - 1)) = 0 := by omega
            simp only [h0, if_false]
            omega
          have hlt' : max 1 (pr - 1) < (takeLast pr msgs).length := by
            rw [hrl]; omega
          obtain ⟨ha, hb, hc⟩ := ih (takeLast pr msgs) t (max 1 (pr - 1)) hm' (by omega) hlt'
          rw [htl1] at hb hc
          exact ⟨ha, hb, hc⟩
      · rename_i hng
        have hfit : ((countTokens enc (takeLast pr msgs) : ℕ) : ℚ) ≤ t := not_lt.mp hng
        refine ⟨?_, ?_, ?_⟩
        · obtain ⟨k, hk⟩ := bfLoop_shape enc t ((msgs.take (msgs.length - pr)).reverse)
            (takeLast pr msgs) (countTokens enc (takeLast pr msgs))
          rw [hk]
          simp only [ne_eq, List.append_eq_nil]
          intro ⟨_, hcon⟩
          exact hne hcon
        · intro _
          exact bfLoop_budget enc t _ _ _ rfl hfit
        · intro hnofit
          exfalso
          apply hnofit
          calc ((countTokens enc (takeLast 1 msgs) : ℕ) : ℚ) ≤
              ((countTokens enc (takeLast pr msgs) : ℕ) : ℚ) := by exact_mod_cast htl_le
            _ ≤ t := hfit

/-- Budget monotonicity of the truncate strategy. -/
theorem truncGo_mono (enc : String → ℕ) :
    ∀ (fuel : ℕ) (msgs : List MessageParam) (t t' : ℚ) (pr : ℕ),
      truncMeasure msgs pr < fuel → 1 ≤ pr → t' ≤ t →
      countTokens enc (truncGo enc fuel msgs t' pr) ≤
        countTokens enc (truncGo enc fuel msgs t pr) := by
  intro fuel
  induction fuel with
  | zero => intro msgs t t' pr hm; omega
  | succ n ih =>
      intro msgs t t' pr hm hpr hle
      by_cases hlen : msgs.length ≤ pr
      · rw [truncGo_of_len_le enc msgs t pr hlen, truncGo_of_len_le enc msgs t' pr hlen]
      · rw [truncGo_succ enc n msgs t pr hlen (by omega),
          truncGo_succ enc n msgs t' pr hlen (by omega)]
        have hrl : (takeLast pr msgs).length = pr := takeLast_length pr msgs (by omega)
        have hm' : truncMeasure (takeLast pr msgs) (max 1 (pr - 1)) < n := by
          simp only [truncMeasure] at hm ⊢
          rw [hrl]
          have h0 : ¬ (max 1 (pr - 1)) = 0 := by omega
          simp only [h0, if_false]
          omega
        by_cases h1 : ((countTokens enc (takeLast pr msgs) : ℕ) : ℚ) ≤ t'
        · rw [if_neg (not_lt.mpr h1), if_neg (not_lt.mpr (le_trans h1 hle))]
          exact bfLoop_mono enc t t' hle _ _ _
        · by_cases h2 : ((countTokens enc (takeLast pr msgs) : ℕ) : ℚ) ≤ t
          · rw [if_pos (not_le.mp h1), if_neg (not_lt.mpr h2)]
            calc countTokens enc (truncGo enc n (takeLast pr msgs) t' (max 1 (pr - 1))) ≤
                countTokens enc (takeLast pr msgs) :=
                  truncGo_le_count enc n (takeLast pr msgs) t' (max 1 (pr - 1)) hm' (by omega)
              _ ≤ _ := bfLoop_ge_acc enc t _ _ _
          · rw [if_pos (not_le.mp h1), if_pos (not_le.mp h2)]
            exact ih (takeLast pr msgs) t t' (max 1 (pr - 1)) hm' (by omega) hle

/-- Amended claim C1: for transcripts longer than `preserveRecent` (with
`preserveRecent ≥ 1`, default 5), `truncateContext` returns a non-empty
transcript; the output token count is at most `maxTokens` whenever the most
recent turn fits in `maxTokens`, and when even the most recent turn does
not fit, the output is exactly that single oversized most recent turn.
Transcripts of at most `preserveRecent` turns are returned unchanged (see
`C9_small_transcript_unchanged`). -/
theorem C1_amended (enc : String → ℕ) (msgs : List MessageParam) (t : ℚ) (pr : ℕ)
    (h1 : 1 ≤ pr) (h2 : pr < msgs.length) :
    truncateContext enc msgs t pr ≠ [] ∧
    (((countTokens enc (takeLast 1 msgs) : ℕ) : ℚ) ≤ t →
      ((countTokens enc (truncateContext enc msgs t pr) : ℕ) : ℚ) ≤ t) ∧
    (¬ ((countTokens enc (takeLast 1 msgs) : ℕ) : ℚ) ≤ t →
      truncateContext enc msgs t pr = takeLast 1 msgs) :=
  truncGo_main enc (truncMeasure msgs pr + 1) msgs t pr (by omega) h1 h2

/-- Witness for the amended claim C1 on a six-turn transcript with budget
20: the output is non-empty and fits the budget. -/
theorem C1_witness :
    truncateContext encLen [msgU2, msgU2, msgU2, msgU2, msgU2, msgZ12] 20 5 ≠ [] ∧
    ((countTokens encLen
        (truncateContext encLen [msgU2, msgU2, msgU2, msgU2, msgU2, msgZ12] 20 5) : ℕ) : ℚ) ≤ 20 := by
  have h := C1_amended encLen [msgU2, msgU2, msgU2, msgU2, msgU2, msgZ12] 20 5
    (by decide) (by decide)
  exact ⟨h.1, h.2.1 (by decide)⟩

/-- Amended claim C8: budget monotonicity holds for the Truncate strategy
(for any `preserveRecent ≥ 1`): lowering the budget never raises the
output token count.  It fails for the sliding-window and priority-based
strategies (`C8_counterexample`), and the Summarize strategy has no total
output to compare (its recursion need not terminate, see
`C2_summarize_diverges`). -/
theorem C8_amended (enc : String → ℕ) (msgs : List MessageParam) (t t' : ℚ) (pr : ℕ)
    (h1 : 1 ≤ pr) (h : t' ≤ t) :
    countTokens enc (truncateContext enc msgs t' pr) ≤
      countTokens enc (truncateContext enc msgs t pr) :=
  truncGo_mono enc (truncMeasure msgs pr + 1) msgs t t' pr (by omega) h1 h

/-- Witness for the amended claim C8 at concrete budgets 8 ≤ 20. -/
theorem C8_witness :
    countTokens encLen (truncateContext encLen [msgU2, msgU2, msgU2, msgU2, msgU2, msgZ12] 8 5) ≤
      countTokens encLen (truncateContext encLen [msgU2, msgU2, msgU2, msgU2, msgU2, msgZ12] 20 5) :=
  C8_amended encLen [msgU2, msgU2, msgU2, msgU2, msgU2, msgZ12] 20 8 5 (by decide)
    (by norm_num)

/-- Counterexample to claim C1 as stated.  First input: two turns of 12 and
2 tokens, budget 5 with the default `preserveRecent = 5` — the transcript
is returned unchanged with 14 tokens, although the budget holds the 2-token
turn, and the result is not a single oversized turn.  Second input: six
turns (five of 2 tokens, most recent of 12), budget 5 — the recursion
bottoms out on the most recent turn and returns it alone with 12 tokens,
although the budget holds any of the 2-token turns. -/
theorem C1_counterexample :
    (truncateContext encLen [msgU12, msgA2] 5 5 = [msgU12, msgA2] ∧
      ¬ ((countTokens encLen [msgU12, msgA2] : ℕ) : ℚ) ≤ 5 ∧
      ((countTokens encLen [msgA2] : ℕ) : ℚ) ≤ 5) ∧
    (truncateContext encLen [msgU2, msgU2, msgU2, msgU2, msgU2, msgZ12] 5 5 = [msgZ12] ∧
      ¬ ((countTokens encLen [msgZ12] : ℕ) : ℚ) ≤ 5 ∧
      ((countTokens encLen [msgU2] : ℕ) : ℚ) ≤ 5 ∧
      msgU2 ∈ [msgU2, msgU2, msgU2, msgU2, msgU2, msgZ12]) := by
  refine ⟨⟨by decide, by decide, by decide⟩, ⟨by decide, by decide, by decide, by decide⟩⟩

/-- Counterexample to claim C3 as stated.  On the transcript
`[mErr, msgA2, mC30]` with budget 20, `priorityBasedCompress` keeps `mErr`
(the first turn) whole, partially truncates `mC30` (the last turn) to the
remaining 15 tokens, and then sorts the fresh truncated object with
`indexOf = -1` to the front: the output places the turn derived from input
position 2 before the turn from input position 0, so the kept set is not in
the input's chronological order. -/
theorem C3_counterexample :
    priorityBasedCompress encLen [mErr, msgA2, mC30] 20 = [mC30trunc, mErr] ∧
    jsTruncateMessage encLen mC30 15 = some mC30trunc ∧
    mC30trunc ∉ [mErr, msgA2, mC30] ∧
    mErr = nthMessage [mErr, msgA2, mC30] 0 ∧
    mC30 = nthMessage [mErr, msgA2, mC30] 2 := by
  refine ⟨by decide, by decide, by decide, by decide, by decide⟩

/-- Counterexample to claim C8 as stated, for the sliding-window and
priority-based strategies.  Sliding window on `[swM1, swR]`: with budget 30
the important pass keeps the 8-token `swM1` and the representative `swR`
then overflows, output 8 tokens; with the smaller budget 25 the important
pass keeps nothing and the representative pass keeps the 24-token `swR`,
output 24 tokens.  Priority-based on `[pbX]` (11 tokens): budget 11 keeps
it whole (11 tokens); budget 10 truncates it to 10 characters plus the
15-character marker, output 25 tokens. -/
theorem C8_counterexample :
    ((25 : ℚ) ≤ 30 ∧
      countTokens encLen (slidingWindowCompress encLen [swM1, swR] 30) <
        countTokens encLen (slidingWindowCompress encLen [swM1, swR] 25)) ∧
    ((10 : ℚ) ≤ 11 ∧
      countTokens encLen (priorityBasedCompress encLen [pbX] 11) <
        countTokens encLen (priorityBasedCompress encLen [pbX] 10)) := by
  refine ⟨⟨by decide, by decide⟩, ⟨by decide, by decide⟩⟩

theorem insertBy_perm {α : Type} (lt : α → α → Bool) (x : α) :
    ∀ l : List α, (insertBy lt x l).Perm (x :: l) := by
  intro l
  induction l with
  | nil => exact List.Perm.refl _
  | cons y ys ih =>
      rw [insertBy]
      split
      · exact (ih.cons y).trans (List.Perm.swap x y ys)
      · exact List.Perm.refl _

theorem sortBy_perm {α : Type} (lt : α → α → Bool) :
    ∀ l : List α, (sortBy lt l).Perm l := by
  intro l
  induction l with
  | nil => exact List.Perm.refl _
  | cons x xs ih => exact (insertBy_perm lt x (sortBy lt xs)).trans (ih.cons x)

theorem insertBy_mem {α : Type} (lt : α → α → Bool) (x z : α) (l : List α) :
    z ∈ insertBy lt x l ↔ z = x ∨ z ∈ l := by
  rw [(insertBy_perm lt x l).mem_iff]
  simp

theorem insertBy_pairwise {α : Type} (key : α → ℤ) (x : α) :
    ∀ l : List α, l.Pairwise (fun a b => key a ≤ key b) →
      (insertBy (fun a b => decide (key a < key b)) x l).Pairwise
        (fun a b => key a ≤ key b) := by
  intro l
  induction l with
  | nil => intro _; exact List.pairwise_singleton _ _
  | cons y ys ih =>
      intro hp
      rcases List.pairwise_cons.mp hp with ⟨hy, hys⟩
      rw [insertBy]
      split
      · rename_i hlt
        have hyx : key y < key x := of_decide_eq_true hlt
        refine List.pairwise_cons.mpr ⟨?_, ih hys⟩
        intro z hz
        rcases (insertBy_mem _ x z ys).mp hz with rfl | hz'
        · exact le_of_lt hyx
        · exact hy z hz'
      · rename_i hnlt
        have hxy : key x ≤ key y := by
          by_contra hc
          exact hnlt (decide_eq_true (lt_of_not_le hc))
        refine List.pairwise_cons.mpr ⟨?_, hp⟩
        intro z hz
        rcases List.mem_cons.mp hz with rfl | hz'
        · exact hxy
        · exact le_trans hxy (hy z hz')

theorem sortBy_pairwise {α : Type} (key : α → ℤ) (l : List α) :
    (sortBy (fun a b => decide (key a < key b)) l).Pairwise
      (fun a b => key a ≤ key b) := by
  induction l with
  | nil => exact List.Pairwise.nil
  | cons x xs ih => exact insertBy_pairwise key x _ ih

theorem uniqueFirst_subset : ∀ l : List ℕ, ∀ x ∈ uniqueFirst l, x ∈ l := by
  intro l
  induction l with
  | nil => intro x hx; cases hx
  | cons a as ih =>
      intro x hx
      rw [uniqueFirst] at hx
      rcases List.mem_cons.mp hx with rfl | hx'
      · exact List.mem_cons_self _ _
      · exact List.mem_cons_of_mem _ (ih x (List.mem_of_mem_filter hx'))

theorem uniqueFirst_nodup : ∀ l : List ℕ, (uniqueFirst l).Nodup := by
  intro l
  induction l with
  | nil => exact List.nodup_nil
  | cons a as ih =>
      rw [uniqueFirst]
      refine List.nodup_cons.mpr ⟨?_, ih.filter _⟩
      intro hmem
      have := List.of_mem_filter hmem
      simp at this

theorem chooseShortest_mem (enc : String → ℕ) :
    ∀ (ws : List MessageParam) (w₀ : MessageParam),
      (ws.foldl (fun shortest current =>
        if countTokens enc [current] < countTokens enc [shortest] then current
        else shortest) w₀) ∈ w₀ :: ws := by
  intro ws
  induction ws with
  | nil => intro w₀; exact List.mem_cons_self _ _
  | cons c cs ih =>
      intro w₀
      rw [List.foldl_cons]
      have hres := ih (if countTokens enc [c] < countTokens enc [w₀] then c else w₀)
      rcases List.mem_cons.mp hres with heq | hin
      · rw [heq]
        split
        · exact List.mem_cons_of_mem _ (List.mem_cons_self _ _)
        · exact List.mem_cons_self _ _
      · exact List.mem_cons_of_mem _ (List.mem_cons_of_mem _ hin)

theorem selectRepresentative_mem (enc : String → ℕ) (w : List MessageParam)
    (r : MessageParam) (h : selectRepresentative enc w = some r) : r ∈ w := by
  cases w with
  | nil => simp [selectRepresentative] at h
  | cons w₀ ws =>
      rw [selectRepresentative] at h
      cases hu : (w₀ :: ws).find? (fun m => decide (m.role = Role.user)) with
      | some u =>
          rw [hu] at h
          cases h
          exact List.mem_of_find?_eq_some hu
      | none =>
          rw [hu] at h
          cases he : (w₀ :: ws).find? messageContainsError with
          | some e =>
              rw [he] at h
              cases h
              exact List.mem_of_find?_eq_some he
          | none =>
              rw [he] at h
              cases h
              exact chooseShortest_mem enc ws w₀

theorem nthMessage_eq (messages : List MessageParam) (i : ℕ) (h : i < messages.length) :
    nthMessage messages i = messages[i] := by
  rw [nthMessage, List.getD_eq_getElem?_getD, List.getElem?_eq_getElem h]
  rfl

theorem nthMessage_mem (messages : List MessageParam) (i : ℕ) (h : i < messages.length) :
    nthMessage messages i ∈ messages := by
  rw [nthMessage_eq messages i h]
  exact List.getElem_mem h

theorem identifyImportantMessages_lt (messages : List MessageParam) :
    ∀ i ∈ identifyImportantMessages messages, i < messages.length := by
  intro i hi
  have hi' := uniqueFirst_subset _ i hi
  obtain ⟨p, hp, hmem⟩ := List.mem_flatMap.mp hi'
  have hplt : p.1 < messages.length := by
    rw [List.enum_eq_zip_range] at hp
    have h2 := (List.of_mem_zip hp).1
    exact List.mem_range.mp h2
  have hip : i = p.1 := by
    simp only [List.mem_append] at hmem
    rcases hmem with (h | h) | h
    · split at h
      · simpa using h
      · cases h
    · split at h
      · simpa using h
      · cases h
    · split at h
      · simpa using h
      · cases h
  rw [hip]
  exact hplt

theorem swFold_mem (enc : String → ℕ) (msgs : List MessageParam) (t : ℚ) :
    ∀ (idxs : List ℕ) (acc : List MessageParam),
      (∀ i ∈ idxs, i < msgs.length) → (∀ x ∈ acc, x ∈ msgs) →
      ∀ x ∈ idxs.foldl (fun result idx =>
        if ((countTokens enc (result ++ [nthMessage msgs idx]) : ℕ) : ℚ) ≤
            qmul t (Rat.divInt 3 10) then result ++ [nthMessage msgs idx]
        else result) acc,
      x ∈ msgs := by
  intro idxs
  induction idxs with
  | nil => intro acc _ hacc x hx; exact hacc x hx
  | cons i is ih =>
      intro acc hbound hacc x hx
      rw [List.foldl_cons] at hx
      refine ih _ (fun j hj => hbound j (List.mem_cons_of_mem _ hj)) ?_ x hx
      intro y hy
      split at hy
      · rcases List.mem_append.mp hy with h | h
        · exact hacc y h
        · rw [List.mem_singleton.mp h]
          exact nthMessage_mem msgs i (hbound i (List.mem_cons_self _ _))
      · exact hacc y hy

theorem swImportantPass_mem (enc : String → ℕ) (msgs : List MessageParam) (t : ℚ) :
    ∀ x ∈ swImportantPass enc msgs t, x ∈ msgs := by
  rw [swImportantPass]
  exact swFold_mem enc msgs t (identifyImportantMessages msgs) []
    (identifyImportantMessages_lt msgs) (by intro x hx; cases hx)

theorem swLoop_mem (enc : String → ℕ) (msgs : List MessageParam) (t : ℚ) (ws : ℕ) :
    ∀ (idxs : List ℕ) (result : List MessageParam),
      (∀ x ∈ result, x ∈ msgs) → ∀ x ∈ swLoop enc msgs t ws idxs result, x ∈ msgs := by
  intro idxs
  induction idxs with
  | nil =>
      intro result hres x hx
      rw [swLoop] at hx
      exact hres x hx
  | cons i is ih =>
      intro result hres x hx
      rw [swLoop] at hx
      cases hsel : selectRepresentative enc ((msgs.take (i + 1)).drop (i - ws)) with
      | none =>
          simp only [hsel] at hx
          exact ih result hres x hx
      | some rep =>
          simp only [hsel] at hx
          have hrepmem : rep ∈ msgs := by
            have h1 := selectRepresentative_mem enc _ rep hsel
            exact List.take_subset _ _ (List.drop_subset _ _ h1)
          by_cases hmemr : rep ∈ result
          · rw [if_pos hmemr] at hx
            exact ih result hres x hx
          · rw [if_neg hmemr] at hx
            by_cases hbud : ((countTokens enc (sortBy (idxLt msgs) (result ++ [rep])) : ℕ) : ℚ) ≤ t
            · rw [if_pos hbud] at hx
              refine ih _ ?_ x hx
              intro y hy
              rcases List.mem_append.mp hy with h | h
              · exact hres y h
              · rw [List.mem_singleton.mp h]; exact hrepmem
            · rw [if_neg hbud] at hx
              exact hres x hx

theorem truncMeasure_step (msgs : List MessageParam) (pr n : ℕ)
    (hm : truncMeasure msgs pr < n + 1) (_hpr : 1 ≤ pr) (hlen : ¬ msgs.length ≤ pr) :
    truncMeasure (takeLast pr msgs) (max 1 (pr - 1)) < n := by
  have hrl : (takeLast pr msgs).length = pr := takeLast_length pr msgs (by omega)
  simp only [truncMeasure] at hm ⊢
  rw [hrl]
  have h0 : ¬ (max 1 (pr - 1)) = 0 := by omega
  simp only [h0, if_false]
  omega

theorem truncGo_sublist (enc : String → ℕ) :
    ∀ (fuel : ℕ) (msgs : List MessageParam) (t : ℚ) (pr : ℕ),
      truncMeasure msgs pr < fuel → 1 ≤ pr →
      (truncGo enc fuel msgs t pr).Sublist msgs := by
  intro fuel
  induction fuel with
  | zero => intro msgs t pr hm _; omega
  | succ n ih =>
      intro msgs t pr hm hpr
      by_cases hlen : msgs.length ≤ pr
      · rw [truncGo_of_len_le enc msgs t pr hlen]
      · rw [truncGo_succ enc n msgs t pr hlen (by omega)]
        have hsub : (takeLast pr msgs).Sublist msgs := by
          rw [takeLast]
          exact List.drop_sublist _ _
        split
        · exact (ih (takeLast pr msgs) t _ (truncMeasure_step msgs pr n hm hpr hlen)
            (by omega)).trans hsub
        · obtain ⟨k, hk⟩ := bfLoop_shape enc t ((msgs.take (msgs.length - pr)).reverse)
            (takeLast pr msgs) (countTokens enc (takeLast pr msgs))
          rw [hk]
          have h1 : (((msgs.take (msgs.length - pr)).reverse.take k).reverse).Sublist
              (msgs.take (msgs.length - pr)) := by
            have h2 := (List.take_sublist k (msgs.take (msgs.length - pr)).reverse).reverse
            rwa [List.reverse_reverse] at h2
          have h3 := List.Sublist.append h1 (List.Sublist.refl (takeLast pr msgs))
          rw [takeLast] at h3
          rwa [List.take_append_drop] at h3

theorem preserved_sublist (msgs : List MessageParam) (pc : ℕ) :
    (if pc = 0 then msgs else msgs.drop (msgs.length - pc)).Sublist msgs := by
  split
  · exact List.Sublist.refl _
  · exact List.drop_sublist _ _

theorem summarizeContext_shape (enc : String → ℕ) :
    ∀ (fuel : ℕ) (msgs : List MessageParam) (t : ℚ) (res : List MessageParam × String),
      summarizeContext enc fuel msgs t = some res →
      ∃ m rest, res.1 = m :: rest ∧ rest.Sublist msgs := by
  intro fuel
  induction fuel with
  | zero => intro msgs t res h; cases h
  | succ n ih =>
      intro msgs t res h
      simp only [summarizeContext] at h
      split at h <;> split at h
      · obtain ⟨m, rest, h1, h2⟩ := ih _ t res h
        exact ⟨m, rest, h1, h2⟩
      · cases h
        exact ⟨_, _, rfl, List.Sublist.refl _⟩
      · obtain ⟨m, rest, h1, h2⟩ := ih _ t res h
        exact ⟨m, rest, h1, h2.trans (List.drop_sublist _ _)⟩
      · cases h
        exact ⟨_, _, rfl, List.drop_sublist _ _⟩

/-- Amended claim C3: order preservation as it actually holds.  Truncate's
output is a sublist of the input.  Sliding-window's output consists of
input turns arranged in non-decreasing original positions.  Priority-based
output is sorted by `messages.indexOf`, so the turns kept whole appear in
the input's relative order, but a partially truncated turn is a fresh
object with `indexOf = -1` and is therefore placed in front of every whole
turn regardless of where its origin sat (see `C3_counterexample`).
Summarize (when it returns) yields one synthetic summary turn followed by
an order-preserving suffix of the input. -/
theorem C3_amended (enc : String → ℕ) (messages : List MessageParam)
    (targetTokens : ℚ) (pr : ℕ) (hpr : 1 ≤ pr) :
    (truncateContext enc messages targetTokens pr).Sublist messages ∧
    ((∀ x ∈ slidingWindowCompress enc messages targetTokens, x ∈ messages) ∧
      (slidingWindowCompress enc messages targetTokens).Pairwise
        (fun a b => jsIndexOf messages a ≤ jsIndexOf messages b)) ∧
    (priorityBasedCompress enc messages targetTokens).Pairwise
      (fun a b => jsIndexOf messages a ≤ jsIndexOf messages b) ∧
    (∀ (fuel : ℕ) (res : List MessageParam × String),
      summarizeContext enc fuel messages targetTokens = some res →
      ∃ m rest, res.1 = m :: rest ∧ rest.Sublist messages) := by
  refine ⟨?_, ⟨?_, ?_⟩, ?_, ?_⟩
  · exact truncGo_sublist enc (truncMeasure messages pr + 1) messages targetTokens pr
      (by omega) hpr
  · intro x hx
    simp only [slidingWindowCompress] at hx
    have hx' := (sortBy_perm _ _).subset hx
    exact swLoop_mem enc messages targetTokens _ _ _
      (swImportantPass_mem enc messages targetTokens) x hx'
  · simp only [slidingWindowCompress]
    exact sortBy_pairwise (jsIndexOf messages) _
  · simp only [priorityBasedCompress]
    exact sortBy_pairwise (jsIndexOf messages) _
  · intro fuel res h
    exact summarizeContext_shape enc fuel messages targetTokens res h

/-- Witness for the amended claim C3 at a concrete transcript and budget. -/
theorem C3_witness :
    (truncateContext encLen [mErr, msgA2, mC30] 20 5).Sublist [mErr, msgA2, mC30] ∧
    (slidingWindowCompress encLen [mErr, msgA2, mC30] 20).Pairwise
      (fun a b => jsIndexOf [mErr, msgA2, mC30] a ≤ jsIndexOf [mErr, msgA2, mC30] b) ∧
    (priorityBasedCompress encLen [mErr, msgA2, mC30] 20).Pairwise
      (fun a b => jsIndexOf [mErr, msgA2, mC30] a ≤ jsIndexOf [mErr, msgA2, mC30] b) := by
  have h := C3_amended encLen [mErr, msgA2, mC30] 20 5 (by decide)
  exact ⟨h.1, h.2.1.2, h.2.2.1⟩

theorem swFold_sublist (enc : String → ℕ) (msgs : List MessageParam) (t : ℚ) :
    ∀ (idxs : List ℕ) (acc : List MessageParam),
      ∃ l, idxs.foldl (fun result idx =>
          if ((countTokens enc (result ++ [nthMessage msgs idx]) : ℕ) : ℚ) ≤
              qmul t (Rat.divInt 3 10) then result ++ [nthMessage msgs idx]
          else result) acc = acc ++ l ∧ l.Sublist (idxs.map (nthMessage msgs)) := by
  intro idxs
  induction idxs with
  | nil => intro acc; exact ⟨[], by simp, by simp⟩
  | cons i is ih =>
      intro acc
      rw [List.foldl_cons]
      split
      · obtain ⟨l, hl, hsub⟩ := ih (acc ++ [nthMessage msgs i])
        refine ⟨nthMessage msgs i :: l, ?_, ?_⟩
        · rw [hl, List.append_assoc, List.singleton_append]
        · rw [List.map_cons]
          exact hsub.cons₂ _
      · obtain ⟨l, hl, hsub⟩ := ih acc
        refine ⟨l, hl, ?_⟩
        rw [List.map_cons]
        exact hsub.cons _

theorem importantMap_nodup (msgs : List MessageParam) (h : msgs.Nodup) :
    ((identifyImportantMessages msgs).map (nthMessage msgs)).Nodup := by
  have hnd : (identifyImportantMessages msgs).Nodup := by
    rw [identifyImportantMessages]
    exact uniqueFirst_nodup _
  refine List.Nodup.map_on ?_ hnd
  intro x hx y hy hxy
  have hxl := identifyImportantMessages_lt msgs x hx
  have hyl := identifyImportantMessages_lt msgs y hy
  rw [nthMessage_eq msgs x hxl, nthMessage_eq msgs y hyl] at hxy
  exact (List.Nodup.getElem_inj_iff h).mp hxy

theorem swImportantPass_nodup (enc : String → ℕ) (msgs : List MessageParam) (t : ℚ)
    (h : msgs.Nodup) : (swImportantPass enc msgs t).Nodup := by
  rw [swImportantPass]
  obtain ⟨l, hl, hsub⟩ := swFold_sublist enc msgs t (identifyImportantMessages msgs) []
  rw [hl, List.nil_append]
  exact List.Nodup.sublist hsub (importantMap_nodup msgs h)

theorem swLoop_nodup (enc : String → ℕ) (msgs : List MessageParam) (t : ℚ) (ws : ℕ) :
    ∀ (idxs : List ℕ) (result : List MessageParam), result.Nodup →
      (swLoop enc msgs t ws idxs result).Nodup := by
  intro idxs
  induction idxs with
  | nil =>
      intro result h
      rw [swLoop]
      exact h
  | cons i is ih =>
      intro result h
      rw [swLoop]
      cases hsel : selectRepresentative enc ((msgs.take (i + 1)).drop (i - ws)) with
      | none =>
          simp only [hsel]
          exact ih result h
      | some rep =>
          simp only [hsel]
          by_cases hmemr : rep ∈ result
          · rw [if_pos hmemr]
            exact ih result h
          · rw [if_neg hmemr]
            by_cases hbud : ((countTokens enc (sortBy (idxLt msgs) (result ++ [rep])) : ℕ) : ℚ) ≤ t
            · rw [if_pos hbud]
              refine ih _ (List.Nodup.append h (List.nodup_singleton rep) ?_)
              intro x hx hxs
              rw [List.mem_singleton.mp hxs] at hx
              exact hmemr hx
            · rw [if_neg hbud]
              exact h

theorem calculatePriorities_map (enc : String → ℕ) (msgs : List MessageParam) :
    (calculatePriorities enc msgs).map (fun r => r.message) = msgs := by
  rw [calculatePriorities, List.map_map]
  exact List.enum_map_snd msgs

theorem pbLoop_origins (enc : String → ℕ) (t : ℚ) (P : MessageParam → Prop) :
    ∀ (rs : List MessagePriority) (result origs : List MessageParam) (cur : ℕ),
      List.Forall₂ (derivedFrom enc) result origs →
      (origs ++ rs.map (fun r => r.message)).Nodup →
      (∀ o ∈ origs ++ rs.map (fun r => r.message), P o) →
      ∃ origs', List.Forall₂ (derivedFrom enc) (pbLoop enc t rs result cur) origs' ∧
        origs'.Nodup ∧ ∀ o ∈ origs', P o := by
  intro rs
  induction rs with
  | nil =>
      intro result origs cur hf hn hp
      rw [pbLoop]
      refine ⟨origs, hf, by simpa using hn, ?_⟩
      intro o ho
      exact hp o (by simpa using ho)
  | cons item rest ih =>
      intro result origs cur hf hn hp
      have hresh : origs ++ (item :: rest).map (fun r => r.message) =
          (origs ++ [item.message]) ++ rest.map (fun r => r.message) := by
        simp
      rw [hresh] at hn hp
      have hsub : (origs ++ rest.map (fun r => r.message)).Sublist
          ((origs ++ [item.message]) ++ rest.map (fun r => r.message)) := by
        rw [List.append_assoc, List.singleton_append]
        exact List.Sublist.append_left (List.sublist_cons_self _ _) origs
      rw [pbLoop]
      split
      · exact ih (result ++ [item.message]) (origs ++ [item.message]) _
          (List.rel_append hf (List.Forall₂.cons (Or.inl rfl) List.Forall₂.nil)) hn hp
      · split
        · cases htr : jsTruncateMessage enc item.message (qsub t ((cur : ℕ) : ℚ)) with
          | some truncated =>
              simp only [htr]
              exact ih (result ++ [truncated]) (origs ++ [item.message]) _
                (List.rel_append hf
                  (List.Forall₂.cons (Or.inr ⟨_, htr⟩) List.Forall₂.nil)) hn hp
          | none =>
              simp only [htr]
              exact ih result origs cur hf (List.Nodup.sublist hsub hn)
                (fun o ho => hp o (hsub.subset ho))
        · exact ih result origs cur hf (List.Nodup.sublist hsub hn)
            (fun o ho => hp o (hsub.subset ho))

theorem forall2_perm_left {α : Type} {R : α → α → Prop} :
    ∀ {l l' origs : List α}, l.Perm l' → List.Forall₂ R l origs →
      ∃ origs', origs.Perm origs' ∧ List.Forall₂ R l' origs' := by
  intro l l' origs hperm
  induction hperm generalizing origs with
  | nil =>
      intro hf
      cases hf
      exact ⟨[], List.Perm.nil, List.Forall₂.nil⟩
  | cons x hperm ih =>
      intro hf
      cases hf with
      | cons hR hf' =>
          obtain ⟨os', hp, hf2⟩ := ih hf'
          exact ⟨_ :: os', hp.cons _, List.Forall₂.cons hR hf2⟩
  | swap x y l =>
      intro hf
      cases hf with
      | cons hR1 hf1 =>
          cases hf1 with
          | cons hR2 hf2 =>
              exact ⟨_, List.Perm.swap _ _ _, List.Forall₂.cons hR2 (List.Forall₂.cons hR1 hf2)⟩
  | trans h1 h2 ih1 ih2 =>
      intro hf
      obtain ⟨os1, hp1, hf1⟩ := ih1 hf
      obtain ⟨os2, hp2, hf2⟩ := ih2 hf1
      exact ⟨os2, hp1.trans hp2, hf2⟩

/-- Claim C7: on a transcript of distinct turn instances, the sliding-window
output contains no turn twice, and every priority-based output turn derives
(whole or partially truncated) from a distinct input turn, so no turn
instance is included twice there either. -/
theorem C7_non_duplication (enc : String → ℕ) (messages : List MessageParam)
    (targetTokens : ℚ) (h : messages.Nodup) :
    (slidingWindowCompress enc messages targetTokens).Nodup ∧
    ∃ origs : List MessageParam,
      List.Forall₂ (derivedFrom enc) (priorityBasedCompress enc messages targetTokens) origs ∧
      origs.Nodup ∧ ∀ o ∈ origs, o ∈ messages := by
  constructor
  · simp only [slidingWindowCompress]
    refine ((sortBy_perm _ _).nodup_iff).mpr ?_
    exact swLoop_nodup enc messages targetTokens _ _ _
      (swImportantPass_nodup enc messages targetTokens h)
  · simp only [priorityBasedCompress]
    have hmap : ((sortBy (fun a b => decide (b.priority < a.priority))
        (calculatePriorities enc messages)).map (fun r => r.message)).Perm messages := by
      have hp := sortBy_perm (fun a b : MessagePriority => decide (b.priority < a.priority))
        (calculatePriorities enc messages)
      have hm := hp.map (fun r => r.message)
      rwa [calculatePriorities_map] at hm
    obtain ⟨origs, hf, hn, hmem⟩ := pbLoop_origins enc targetTokens (· ∈ messages)
      (sortBy (fun a b => decide (b.priority < a.priority)) (calculatePriorities enc messages))
      [] [] 0 List.Forall₂.nil
      (by rw [List.nil_append]; exact hmap.nodup_iff.mpr h)
      (by
        intro o ho
        rw [List.nil_append] at ho
        exact hmap.subset ho)
    have hperm : (pbLoop enc targetTokens
        (sortBy (fun a b => decide (b.priority < a.priority)) (calculatePriorities enc messages))
        [] 0).Perm
        (sortBy (idxLt messages) (pbLoop enc targetTokens
          (sortBy (fun a b => decide (b.priority < a.priority))
            (calculatePriorities enc messages)) [] 0)) :=
      (sortBy_perm _ _).symm
    obtain ⟨origs', hpo, hf'⟩ := forall2_perm_left hperm hf
    exact ⟨origs', hf', hpo.nodup_iff.mp hn, fun o ho => hmem o (hpo.mem_iff.mpr ho)⟩

/-- Witness for claim C7 at a concrete three-turn transcript. -/
theorem C7_witness :
    (slidingWindowCompress encLen [mErr, msgA2, mC30] 20).Nodup ∧
    ∃ origs : List MessageParam,
      List.Forall₂ (derivedFrom encLen) (priorityBasedCompress encLen [mErr, msgA2, mC30] 20) origs ∧
      origs.Nodup ∧ ∀ o ∈ origs, o ∈ [mErr, msgA2, mC30] :=
  C7_non_duplication encLen [mErr, msgA2, mC30] 20 (by decide)
